import Mathlib

/-!
Shallow embedding of `ComfyUI_PowerShiftScheduler/__init__.py`.

Python floats are modelled by `ℝ`; `x ** y` (numpy elementwise power on
non-negative bases, the documented domain) is modelled by `Real.rpow`;
`numpy.rint` (round half to even) is modelled exactly; Python `int`
truncation toward zero is modelled by `pyTrunc`.  Python list indexing
`sigmas[t_int]` is modelled with `List.getD _ 0`; the safety theorem for
claim C5 shows the index is always in range on the documented domain, so
the default is never read there.  Operations that raise in Python
(`ZeroDivisionError`, `numpy.linspace` with a negative count) are
modelled by `Option`, returning `none` where Python raises.
-/

/-- Python runtime value passed for `discard_penultimate`.  The source
tests it with the identity comparison `discard_penultimate is True`,
which distinguishes the boolean object `True` from other truthy values
such as the integer `1`. -/
inductive PyVal where
  | vBool (b : Bool)
  | vInt (n : ℤ)
deriving DecidableEq

/-- Model of the Python identity test `v is True`: true exactly for the
boolean object `True`. -/
def pyIsTrue : PyVal → Bool
  | .vBool b => b
  | .vInt _ => false

/-- Model of `numpy.rint`: round to the nearest integer, ties to even. -/
noncomputable def rint (r : ℝ) : ℤ :=
  if Int.fract r < 1 / 2 then ⌊r⌋
  else if 1 / 2 < Int.fract r then ⌊r⌋ + 1
  else if Even ⌊r⌋ then ⌊r⌋ else ⌊r⌋ + 1

/-- Model of Python `int(r)` on a float: truncation toward zero. -/
noncomputable def pyTrunc (r : ℝ) : ℤ :=
  if 0 ≤ r then ⌊r⌋ else -⌊-r⌋

/-- Model of `numpy.linspace(0, 1, steps, endpoint=False)`:
the list `[0/steps, 1/steps, ..., (steps-1)/steps]`. -/
noncomputable def linspace01 (steps : ℕ) : List ℝ :=
  (List.range steps).map (fun (i : ℕ) => (i : ℝ) / (steps : ℝ))

/-- Line `x = x**midpoint_shift` of the source: each linspace position
raised (elementwise) to `midpoint_shift`. -/
noncomputable def xShifted (steps : ℕ) (midpoint_shift : ℝ) : List ℝ :=
  (linspace01 steps).map (fun t => t ^ midpoint_shift)

/-- The elementwise map of line `ts_normalized = (1 - x**power)**power`. -/
noncomputable def ts_normalized (power : ℝ) (x : ℝ) : ℝ :=
  (1 - x ^ power) ^ power

/-- The full vector `ts_normalized` of the source. -/
noncomputable def tsNormalizedList (steps : ℕ) (power midpoint_shift : ℝ) : List ℝ :=
  (xShifted steps midpoint_shift).map (ts_normalized power)

/-- Line `ts = numpy.rint(ts_normalized * total_timesteps)` of the
source, as a list of integers (the entries of the numpy array are
integral floats, and the later `int(t)` is the identity on them). -/
noncomputable def tsInts (steps : ℕ) (power midpoint_shift : ℝ) (total_timesteps : ℤ) : List ℤ :=
  (tsNormalizedList steps power midpoint_shift).map (fun v => rint (v * (total_timesteps : ℝ)))

/-- The `for t in ts` loop of the source: clamp each timestep with
`t_int = min(int(t), total_timesteps)` and append
`sigmas[t_int]` only when `t_int` differs from the previous index. -/
def sigLoop (sigmas : List ℝ) (total_timesteps : ℤ) : List ℤ → ℤ → List ℝ
  | [], _ => []
  | t :: ts, last_t =>
      if min t total_timesteps ≠ last_t then
        sigmas.getD (min t total_timesteps).toNat 0
          :: sigLoop sigmas total_timesteps ts (min t total_timesteps)
      else
        sigLoop sigmas total_timesteps ts (min t total_timesteps)

/-- Model of `power_shift_scheduler(model_sampling, steps, power,
midpoint_shift, discard_penultimate)`.  `sigmas` is the model's sigma
table (`model_sampling.sigmas`); `total_timesteps = len(sigmas) - 1`.
After appending the final `0.0`, the branch
`torch.cat((sigmas[:-2], sigmas[-1:]))` is taken exactly when
`discard_penultimate is True`. -/
noncomputable def power_shift_scheduler (sigmas : List ℝ) (steps : ℕ)
    (power midpoint_shift : ℝ) (discard_penultimate : PyVal) : List ℝ :=
  let total_timesteps : ℤ := (sigmas.length : ℤ) - 1
  let ts := tsInts steps power midpoint_shift total_timesteps
  let sigs := sigLoop sigmas total_timesteps ts (-1) ++ [0]
  if pyIsTrue discard_penultimate then
    sigs.take (sigs.length - 2) ++ sigs.drop (sigs.length - 1)
  else
    sigs

/-- Model of `PowerShiftSchedulerNode.get_sigmas`.  For `denoise < 1.0`
the source computes `total_steps = int(steps/denoise)`: at
`denoise = 0` Python raises `ZeroDivisionError` (modelled `none`), and a
negative `total_steps` makes `numpy.linspace` raise (modelled `none`).
The final `sigmas[-(steps + 1):]` keeps the last `steps + 1` entries,
or the whole sequence when it is shorter. -/
noncomputable def get_sigmas (sigmas : List ℝ) (steps : ℕ)
    (power midpoint_shift : ℝ) (discard_penultimate : PyVal) (denoise : ℝ) :
    Option (List ℝ) :=
  if denoise < 1 then
    if denoise = 0 then none
    else if pyTrunc ((steps : ℝ) / denoise) < 0 then none
    else
      let s := power_shift_scheduler sigmas (pyTrunc ((steps : ℝ) / denoise)).toNat
        power midpoint_shift discard_penultimate
      some (s.drop (s.length - (steps + 1)))
  else
    let s := power_shift_scheduler sigmas steps power midpoint_shift discard_penultimate
    some (s.drop (s.length - (steps + 1)))

/-- Model of `comfy.samplers.SchedulerHandler`: the registered handler
function together with the `use_ms` flag. -/
structure SchedulerHandler where
  handler : List ℝ → ℕ → ℝ → ℝ → PyVal → List ℝ
  use_ms : Bool

/-- Host registry state: `SCHEDULER_HANDLERS` (a name-keyed table,
modelled as an association list) and `SCHEDULER_NAMES`. -/
structure HostState where
  handlers : List (String × SchedulerHandler)
  names : List String

/-- The name under which the scheduler registers itself. -/
def scheduler_name : String := "power_shift"

/-- Model of the import-time registration block: if `scheduler_name` is
not a key of `SCHEDULER_HANDLERS`, insert the handler and, if the name
is also absent from `SCHEDULER_NAMES`, append it there. -/
noncomputable def registerPowerShift (st : HostState) : HostState :=
  if st.handlers.any (fun e => e.1 == scheduler_name) then st
  else
    { handlers := st.handlers ++
        [(scheduler_name, { handler := power_shift_scheduler, use_ms := true })],
      names :=
        if st.names.any (fun n => n == scheduler_name) then st.names
        else st.names ++ [scheduler_name] }

/-! ### Helper lemmas -/

theorem rint_zero : rint 0 = 0 := by
  simp [rint]

theorem rint_nonneg {r : ℝ} (hr : 0 ≤ r) : 0 ≤ rint r := by
  have h0 : (0 : ℤ) ≤ ⌊r⌋ := Int.floor_nonneg.mpr hr
  unfold rint
  split
  · exact h0
  split
  · omega
  split
  · exact h0
  · omega

theorem sigLoop_length_le (s : List ℝ) (total : ℤ) (l : List ℤ) (last : ℤ) :
    (sigLoop s total l last).length ≤ l.length := by
  induction l generalizing last with
  | nil => simp [sigLoop]
  | cons t ts ih =>
    simp only [sigLoop]
    split
    · simpa using ih (min t total)
    · exact le_trans (ih (min t total)) (Nat.le_succ _)

theorem tsInts_length (steps : ℕ) (p m : ℝ) (total : ℤ) :
    (tsInts steps p m total).length = steps := by
  simp only [tsInts, tsNormalizedList, xShifted, linspace01, List.length_map,
    List.length_range]

theorem tsNormalizedList_mem_bounds (steps : ℕ) (p m : ℝ) (hp : 0 ≤ p) (hm : 0 ≤ m) :
    ∀ v ∈ tsNormalizedList steps p m, 0 ≤ v ∧ v ≤ 1 := by
  intro v hv
  rw [tsNormalizedList, List.mem_map] at hv
  obtain ⟨x, hx, rfl⟩ := hv
  rw [xShifted, List.mem_map] at hx
  obtain ⟨t, ht, rfl⟩ := hx
  rw [linspace01, List.mem_map] at ht
  obtain ⟨i, hi, rfl⟩ := ht
  rw [List.mem_range] at hi
  rw [ts_normalized]
  have hsteps : 0 < steps := Nat.lt_of_le_of_lt (Nat.zero_le i) hi
  have ht0 : (0 : ℝ) ≤ (i : ℝ) / (steps : ℝ) :=
    div_nonneg (Nat.cast_nonneg i) (Nat.cast_nonneg steps)
  have ht1 : (i : ℝ) / (steps : ℝ) ≤ 1 := by
    rw [div_le_one (by exact_mod_cast hsteps)]
    exact_mod_cast hi.le
  have hx0 : (0 : ℝ) ≤ ((i : ℝ) / (steps : ℝ)) ^ m := Real.rpow_nonneg ht0 m
  have hx1 : ((i : ℝ) / (steps : ℝ)) ^ m ≤ 1 := Real.rpow_le_one ht0 ht1 hm
  have hy0 : (0 : ℝ) ≤ (((i : ℝ) / (steps : ℝ)) ^ m) ^ p := Real.rpow_nonneg hx0 p
  have hy1 : (((i : ℝ) / (steps : ℝ)) ^ m) ^ p ≤ 1 := Real.rpow_le_one hx0 hx1 hp
  constructor
  · exact Real.rpow_nonneg (by linarith) p
  · exact Real.rpow_le_one (by linarith) (by linarith) hp

theorem tsInts_mem_nonneg (steps : ℕ) (p m : ℝ) (total : ℤ) (hp : 0 ≤ p) (hm : 0 ≤ m)
    (htotal : 0 ≤ total) : ∀ t ∈ tsInts steps p m total, 0 ≤ t := by
  intro t ht
  simp only [tsInts, List.mem_map] at ht
  obtain ⟨v, hv, rfl⟩ := ht
  exact rint_nonneg (mul_nonneg (tsNormalizedList_mem_bounds steps p m hp hm v hv).1
    (by exact_mod_cast htotal))

theorem dedupAppendLast (S : List ℝ) :
    ((S ++ [(0 : ℝ)]).take ((S ++ [(0 : ℝ)]).length - 2) ++
      (S ++ [(0 : ℝ)]).drop ((S ++ [(0 : ℝ)]).length - 1)).getLast? = some 0 := by
  have h1 : (S ++ [(0 : ℝ)]).length - 1 = S.length := by simp
  rw [h1, List.drop_left, List.getLast?_concat]

/-! ### Claim theorems -/

/-- Claim C1: for every non-empty sigma table, every `steps ≥ 1`,
non-negative `power` and `midpoint_shift`, and both boolean values of
`discard_penultimate`, the last element of the returned sequence is
`0.0`. -/
theorem C1_last_element_zero (sigmas : List ℝ) (steps : ℕ) (power midpoint_shift : ℝ)
    (b : Bool) (hne : sigmas ≠ []) (hsteps : 1 ≤ steps) (hp : 0 ≤ power)
    (hm : 0 ≤ midpoint_shift) :
    (power_shift_scheduler sigmas steps power midpoint_shift (.vBool b)).getLast? = some 0 := by
  unfold power_shift_scheduler
  cases b with
  | false => simp [pyIsTrue, List.getLast?_concat]
  | true =>
    simpa [pyIsTrue] using
      dedupAppendLast (sigLoop sigmas ((sigmas.length : ℤ) - 1)
        (tsInts steps power midpoint_shift ((sigmas.length : ℤ) - 1)) (-1))

/-- Witness for C1 at a concrete input. -/
theorem C1_witness :
    (power_shift_scheduler [1] 1 1 1 (.vBool true)).getLast? = some 0 :=
  C1_last_element_zero [1] 1 1 1 true (by simp) (le_refl 1) zero_le_one zero_le_one

theorem sigLoop_cons_of_ne (s : List ℝ) (total t : ℤ) (ts : List ℤ) (last : ℤ)
    (h : min t total ≠ last) :
    sigLoop s total (t :: ts) last =
      s.getD (min t total).toNat 0 :: sigLoop s total ts (min t total) := by
  simp [sigLoop, h]

theorem sigs_ne_nil (sigmas : List ℝ) (steps : ℕ) (p m : ℝ)
    (hne : sigmas ≠ []) (hsteps : 1 ≤ steps) (hp : 0 ≤ p) (hm : 0 ≤ m) :
    sigLoop sigmas ((sigmas.length : ℤ) - 1)
      (tsInts steps p m ((sigmas.length : ℤ) - 1)) (-1) ≠ [] := by
  have hlen : 1 ≤ sigmas.length := List.length_pos.mpr hne
  have htotal : (0 : ℤ) ≤ (sigmas.length : ℤ) - 1 := by omega
  cases hts : tsInts steps p m ((sigmas.length : ℤ) - 1) with
  | nil =>
    have h := tsInts_length steps p m ((sigmas.length : ℤ) - 1)
    rw [hts] at h
    simp at h
    omega
  | cons t rest =>
    have ht0 : 0 ≤ t := by
      refine tsInts_mem_nonneg steps p m ((sigmas.length : ℤ) - 1) hp hm htotal t ?_
      rw [hts]
      exact List.mem_cons_self t rest
    have hmin : min t ((sigmas.length : ℤ) - 1) ≠ -1 := by
      have := le_min ht0 htotal
      omega
    rw [sigLoop_cons_of_ne sigmas ((sigmas.length : ℤ) - 1) t rest (-1) hmin]
    exact List.cons_ne_nil _ _

theorem pss_false_eq (sig : List ℝ) (steps : ℕ) (p m : ℝ) :
    power_shift_scheduler sig steps p m (.vBool false) =
      sigLoop sig ((sig.length : ℤ) - 1) (tsInts steps p m ((sig.length : ℤ) - 1)) (-1)
        ++ [0] := rfl

theorem pss_true_eq (sig : List ℝ) (steps : ℕ) (p m : ℝ) :
    power_shift_scheduler sig steps p m (.vBool true) =
      (power_shift_scheduler sig steps p m (.vBool false)).take
        ((power_shift_scheduler sig steps p m (.vBool false)).length - 2) ++
      (power_shift_scheduler sig steps p m (.vBool false)).drop
        ((power_shift_scheduler sig steps p m (.vBool false)).length - 1) := rfl

/-- Claim C2 (amended): for valid inputs the output length is at most
`steps + 1` for both values of `discard_penultimate`; it is at least 2
when `discard_penultimate` is `False`, but only at least 1 when it is
`True` (the pre-discard output can already have the minimal length 2, in
which case the discard step shortens it to the single element `[0.0]`). -/
theorem C2_length_bounds (sigmas : List ℝ) (steps : ℕ) (p m : ℝ)
    (hne : sigmas ≠ []) (hsteps : 1 ≤ steps) (hp : 0 ≤ p) (hm : 0 ≤ m) :
    (∀ b : Bool, (power_shift_scheduler sigmas steps p m (.vBool b)).length ≤ steps + 1) ∧
    2 ≤ (power_shift_scheduler sigmas steps p m (.vBool false)).length ∧
    1 ≤ (power_shift_scheduler sigmas steps p m (.vBool true)).length := by
  have hSlen : (sigLoop sigmas ((sigmas.length : ℤ) - 1)
      (tsInts steps p m ((sigmas.length : ℤ) - 1)) (-1)).length ≤ steps := by
    calc (sigLoop sigmas ((sigmas.length : ℤ) - 1)
        (tsInts steps p m ((sigmas.length : ℤ) - 1)) (-1)).length
        ≤ (tsInts steps p m ((sigmas.length : ℤ) - 1)).length := sigLoop_length_le _ _ _ _
      _ = steps := tsInts_length _ _ _ _
  have hSne : 1 ≤ (sigLoop sigmas ((sigmas.length : ℤ) - 1)
      (tsInts steps p m ((sigmas.length : ℤ) - 1)) (-1)).length :=
    List.length_pos.mpr (sigs_ne_nil sigmas steps p m hne hsteps hp hm)
  have hfalse : (power_shift_scheduler sigmas steps p m (.vBool false)).length =
      (sigLoop sigmas ((sigmas.length : ℤ) - 1)
        (tsInts steps p m ((sigmas.length : ℤ) - 1)) (-1)).length + 1 := by
    rw [pss_false_eq]
    simp
  have htrue : (power_shift_scheduler sigmas steps p m (.vBool true)).length =
      (sigLoop sigmas ((sigmas.length : ℤ) - 1)
        (tsInts steps p m ((sigmas.length : ℤ) - 1)) (-1)).length := by
    rw [pss_true_eq, List.length_append, List.length_take, List.length_drop, hfalse]
    omega
  refine ⟨?_, by omega, by omega⟩
  intro b
  cases b with
  | false => omega
  | true => omega

theorem linspace01_one : linspace01 1 = [0] := by
  simp [linspace01, List.range_succ]

theorem xShifted_one : xShifted 1 1 = [0] := by
  simp [xShifted, linspace01_one, Real.rpow_one]

theorem tsNormalizedList_one : tsNormalizedList 1 1 1 = [1] := by
  simp [tsNormalizedList, xShifted_one, ts_normalized, Real.rpow_one]

theorem tsInts_one : tsInts 1 1 1 0 = [0] := by
  simp [tsInts, tsNormalizedList_one, rint_zero]

/-- Counterexample to claim C2 as stated: on the valid input
`sigma_table = [1.0]`, `steps = 1`, `power = 1`, `midpoint_shift = 1`,
`discard_penultimate = True`, the returned sequence is `[0.0]`, of
length 1, so the claimed lower bound of 2 fails. -/
theorem C2_counterexample :
    ¬ 2 ≤ (power_shift_scheduler [1] 1 1 1 (.vBool true)).length := by
  have h : ((([1] : List ℝ).length : ℤ) - 1) = 0 := by simp
  simp only [power_shift_scheduler, h, tsInts_one, pyIsTrue]
  norm_num [sigLoop]

/-- Witness for C2 at a concrete input. -/
theorem C2_witness :
    (∀ b : Bool, (power_shift_scheduler [1] 1 1 1 (.vBool b)).length ≤ 1 + 1) ∧
    2 ≤ (power_shift_scheduler [1] 1 1 1 (.vBool false)).length ∧
    1 ≤ (power_shift_scheduler [1] 1 1 1 (.vBool true)).length :=
  C2_length_bounds [1] 1 1 1 (by simp) (le_refl 1) zero_le_one zero_le_one

/-- Claim C3: for valid inputs, the `discard_penultimate=True` output
equals the `discard_penultimate=False` output with its second-to-last
element (index `length - 2`) removed. -/
theorem C3_discard_is_erase_penultimate (sigmas : List ℝ) (steps : ℕ) (p m : ℝ)
    (hne : sigmas ≠ []) (hsteps : 1 ≤ steps) (hp : 0 ≤ p) (hm : 0 ≤ m) :
    power_shift_scheduler sigmas steps p m (.vBool true) =
      (power_shift_scheduler sigmas steps p m (.vBool false)).eraseIdx
        ((power_shift_scheduler sigmas steps p m (.vBool false)).length - 2) := by
  have hSne : 1 ≤ (sigLoop sigmas ((sigmas.length : ℤ) - 1)
      (tsInts steps p m ((sigmas.length : ℤ) - 1)) (-1)).length :=
    List.length_pos.mpr (sigs_ne_nil sigmas steps p m hne hsteps hp hm)
  have hlen : 2 ≤ (power_shift_scheduler sigmas steps p m (.vBool false)).length := by
    rw [pss_false_eq, List.length_append]
    simp only [List.length_singleton]
    omega
  rw [pss_true_eq, List.eraseIdx_eq_take_drop_succ]
  congr 2
  omega

/-- Witness for C3 at a concrete input. -/
theorem C3_witness :
    power_shift_scheduler [1] 1 1 1 (.vBool true) =
      (power_shift_scheduler [1] 1 1 1 (.vBool false)).eraseIdx
        ((power_shift_scheduler [1] 1 1 1 (.vBool false)).length - 2) :=
  C3_discard_is_erase_penultimate [1] 1 1 1 (by simp) (le_refl 1) zero_le_one zero_le_one

theorem tsInts_total_zero (steps : ℕ) (p m : ℝ) :
    ∀ t ∈ tsInts steps p m 0, t = 0 := by
  intro t ht
  rw [tsInts, List.mem_map] at ht
  obtain ⟨v, hv, rfl⟩ := ht
  simp only [Int.cast_zero, mul_zero]
  exact rint_zero

theorem sigLoop_all_eq (s : List ℝ) (total : ℤ) (l : List ℤ) (last : ℤ)
    (h : ∀ t ∈ l, min t total = last) : sigLoop s total l last = [] := by
  induction l with
  | nil => rfl
  | cons t ts ih =>
    have ht := h t (List.mem_cons_self t ts)
    simp only [sigLoop, ht]
    rw [if_neg (by simp)]
    exact ih (fun u hu => h u (List.mem_cons_of_mem t hu))

/-- Counterexample to claim C4 as stated: with `power = 0`, at the
positive position `x = 1/2` the value `t_norm = (1 - x^0)^0 = 0^0 = 1`
is not 0, so `t_norm` does not collapse toward 0. -/
theorem C4_counterexample : ts_normalized 0 (1 / 2) ≠ 0 := by
  rw [ts_normalized, Real.rpow_zero]
  norm_num

/-- Claim C4 (amended): with `power = 0`, `x^power = 1` for every
`x > 0` and `1 - x^power = 0`, but the outer exponent is also 0, so the
normalized timestep `t_norm = (1 - x^power)^power = 0^0` equals 1 at
every position: the values collapse toward the maximal timestep, not
toward 0. -/
theorem C4_power_zero (x : ℝ) (hx : 0 < x) :
    x ^ (0 : ℝ) = 1 ∧ 1 - x ^ (0 : ℝ) = 0 ∧ ts_normalized 0 x = 1 := by
  refine ⟨Real.rpow_zero x, ?_, ?_⟩
  · rw [Real.rpow_zero]
    ring
  · rw [ts_normalized, Real.rpow_zero]

/-- Witness for C4 at a concrete input. -/
theorem C4_witness :
    (1 / 2 : ℝ) ^ (0 : ℝ) = 1 ∧ 1 - (1 / 2 : ℝ) ^ (0 : ℝ) = 0 ∧
      ts_normalized 0 (1 / 2) = 1 :=
  C4_power_zero (1 / 2) (by norm_num)

/-- Claim C5: on the documented domain (non-empty table, `steps ≥ 1`,
non-negative `power` and `midpoint_shift`) the generator is total, and
every clamped index `t_int = min(int(t), total_timesteps)` lies in
`[0, total_timesteps]`, so reading `sigma_table[t_int]` is in range. -/
theorem C5_indices_in_range (sigmas : List ℝ) (steps : ℕ) (p m : ℝ)
    (hne : sigmas ≠ []) (hsteps : 1 ≤ steps) (hp : 0 ≤ p) (hm : 0 ≤ m) :
    List.Forall
      (fun t => 0 ≤ min t ((sigmas.length : ℤ) - 1) ∧
        min t ((sigmas.length : ℤ) - 1) ≤ (sigmas.length : ℤ) - 1)
      (tsInts steps p m ((sigmas.length : ℤ) - 1)) := by
  rw [List.forall_iff_forall_mem]
  intro t ht
  have hlen : 1 ≤ sigmas.length := List.length_pos.mpr hne
  have htotal : (0 : ℤ) ≤ (sigmas.length : ℤ) - 1 := by omega
  have h0 := tsInts_mem_nonneg steps p m ((sigmas.length : ℤ) - 1) hp hm htotal t ht
  exact ⟨le_min h0 htotal, min_le_right _ _⟩

/-- Witness for C5 at a concrete input. -/
theorem C5_witness :
    List.Forall
      (fun t => 0 ≤ min t ((([1, 2] : List ℝ).length : ℤ) - 1) ∧
        min t ((([1, 2] : List ℝ).length : ℤ) - 1) ≤ (([1, 2] : List ℝ).length : ℤ) - 1)
      (tsInts 1 1 1 ((([1, 2] : List ℝ).length : ℤ) - 1)) :=
  C5_indices_in_range [1, 2] 1 1 1 (by simp) (le_refl 1) zero_le_one zero_le_one

/-- Claim C8: when the sigma table has a single entry
(`total_timesteps = 0`), for any `steps ≥ 1` and any `power` and
`midpoint_shift`, the output (with the default
`discard_penultimate=False`) is exactly `[sigma_table[0], 0.0]`. -/
theorem C8_degenerate_table (sigmas : List ℝ) (steps : ℕ) (p m : ℝ)
    (hlen : sigmas.length = 1) (hsteps : 1 ≤ steps) :
    power_shift_scheduler sigmas steps p m (.vBool false) = [sigmas.getD 0 0, 0] := by
  obtain ⟨a, rfl⟩ := List.length_eq_one.mp hlen
  rw [pss_false_eq]
  norm_num
  cases hts : tsInts steps p m ((([a] : List ℝ).length : ℤ) - 1) with
  | nil =>
    exfalso
    have h := tsInts_length steps p m ((([a] : List ℝ).length : ℤ) - 1)
    rw [hts] at h
    simp at h
    omega
  | cons t rest =>
    have h0 : ((([a] : List ℝ).length : ℤ) - 1) = 0 := by simp
    rw [h0] at hts
    have hallz : ∀ u ∈ tsInts steps p m 0, u = 0 := tsInts_total_zero steps p m
    have ht : t = 0 := hallz t (by rw [hts]; exact List.mem_cons_self t rest)
    subst ht
    rw [hts, sigLoop_cons_of_ne _ _ _ _ _ (by simp)]
    rw [sigLoop_all_eq _ _ _ _ ?_]
    · simp
    · intro u hu
      have hu0 : u = 0 := hallz u (by rw [hts]; exact List.mem_cons_of_mem 0 hu)
      simp [hu0]

/-- Witness for C8 at a concrete input. -/
theorem C8_witness :
    power_shift_scheduler [5] 1 1 1 (.vBool false) = [([5] : List ℝ).getD 0 0, 0] :=
  C8_degenerate_table [5] 1 1 1 (by simp) (le_refl 1)

/-- Claim C6, evaluated at the failing input: the node's declared input
ranges admit `denoise = 0.0` (`"min": 0.0`), but there `get_sigmas`
computes `int(steps/denoise)` and Python raises `ZeroDivisionError`
(modelled as `none`), so the call does not complete without error. -/
theorem C6_denoise_zero_fails :
    get_sigmas [1, 2] 3 2 1 (.vBool false) 0 = none := by
  rw [get_sigmas, if_pos (by norm_num : (0 : ℝ) < 1), if_pos rfl]

/-- Claim C7: with `steps = 10`, `denoise = 0.5` the adapter runs the
generator at `total_steps = 20` and returns exactly the last 11 entries
of the generated sequence; when the generated sequence has fewer than
11 entries it is returned whole. -/
theorem C7_adapter_truncation (sigmas : List ℝ) (p m : ℝ) (d : PyVal) :
    get_sigmas sigmas 10 p m d (1 / 2) =
      some ((power_shift_scheduler sigmas 20 p m d).drop
        ((power_shift_scheduler sigmas 20 p m d).length - 11)) ∧
    ((power_shift_scheduler sigmas 20 p m d).length < 11 →
      get_sigmas sigmas 10 p m d (1 / 2) =
        some (power_shift_scheduler sigmas 20 p m d)) := by
  have h3 : pyTrunc (((10 : ℕ) : ℝ) / (1 / 2)) = 20 := by
    rw [pyTrunc, if_pos (by norm_num)]
    have h : (((10 : ℕ) : ℝ) / (1 / 2)) = 20 := by norm_num
    rw [h]
    norm_num
  have hmain : get_sigmas sigmas 10 p m d (1 / 2) =
      some ((power_shift_scheduler sigmas 20 p m d).drop
        ((power_shift_scheduler sigmas 20 p m d).length - 11)) := by
    rw [get_sigmas, if_pos (by norm_num : (1 / 2 : ℝ) < 1),
      if_neg (by norm_num : ¬(1 / 2 : ℝ) = 0), if_neg (by rw [h3]; norm_num), h3]
    have h4 : (20 : ℤ).toNat = 20 := rfl
    rw [h4]
  refine ⟨hmain, fun hshort => ?_⟩
  rw [hmain, Nat.sub_eq_zero_of_le (Nat.le_of_lt hshort), List.drop_zero]

/-- Witness for C7 at a concrete input (no hypotheses to discharge;
instantiation at concrete arguments). -/
theorem C7_witness :
    get_sigmas [1] 10 1 1 (.vBool false) (1 / 2) =
      some ((power_shift_scheduler [1] 20 1 1 (.vBool false)).drop
        ((power_shift_scheduler [1] 20 1 1 (.vBool false)).length - 11)) ∧
    ((power_shift_scheduler [1] 20 1 1 (.vBool false)).length < 11 →
      get_sigmas [1] 10 1 1 (.vBool false) (1 / 2) =
        some (power_shift_scheduler [1] 20 1 1 (.vBool false))) :=
  C7_adapter_truncation [1] 1 1 (.vBool false)

theorem registerPowerShift_of_mem (s : HostState)
    (h : s.handlers.any (fun e => e.1 == scheduler_name) = true) :
    registerPowerShift s = s := by
  rw [registerPowerShift, if_pos h]

/-- Claim C9: starting from any host state not containing the
`"power_shift"` key in the handler table nor the name in the name list,
running the registration step twice leaves exactly one handler entry
under that key and the name list contains `"power_shift"` exactly once. -/
theorem C9_registration_idempotent (st : HostState)
    (hh : st.handlers.countP (fun e => e.1 == scheduler_name) = 0)
    (hn : st.names.count scheduler_name = 0) :
    (registerPowerShift (registerPowerShift st)).handlers.countP
        (fun e => e.1 == scheduler_name) = 1 ∧
    (registerPowerShift (registerPowerShift st)).names.count scheduler_name = 1 := by
  have hany : st.handlers.any (fun e => e.1 == scheduler_name) = false := by
    rw [List.any_eq_false]
    intro e he
    have h := List.countP_eq_zero.mp hh e he
    simpa using h
  have hnany : st.names.any (fun n => n == scheduler_name) = false := by
    rw [List.any_eq_false]
    intro x hx
    have hne : x ≠ scheduler_name := fun h => (List.count_eq_zero.mp hn) (h ▸ hx)
    simpa using hne
  have hreg1 : registerPowerShift st =
      { handlers := st.handlers ++
          [(scheduler_name, { handler := power_shift_scheduler, use_ms := true })],
        names := st.names ++ [scheduler_name] } := by
    rw [registerPowerShift, if_neg (by rw [hany]; simp), if_neg (by rw [hnany]; simp)]
  have hmem : (registerPowerShift st).handlers.any
      (fun e => e.1 == scheduler_name) = true := by
    rw [hreg1]
    simp
  rw [registerPowerShift_of_mem _ hmem, hreg1]
  constructor
  · rw [List.countP_append, hh]
    simp
  · rw [List.count_append, hn]
    simp

/-- Witness for C9 at the concrete empty host state. -/
theorem C9_witness :
    (registerPowerShift (registerPowerShift ⟨[], []⟩)).handlers.countP
        (fun e => e.1 == scheduler_name) = 1 ∧
    (registerPowerShift (registerPowerShift ⟨[], []⟩)).names.count scheduler_name = 1 :=
  C9_registration_idempotent ⟨[], []⟩ rfl rfl

/-- Claim C10: the discard branch is taken only when the argument is the
exact boolean `True` (Python identity comparison `is True`); any other
runtime value, such as the truthy integer `1`, yields the same output as
`discard_penultimate=False`. -/
theorem C10_identity_comparison (sigmas : List ℝ) (steps : ℕ) (p m : ℝ) (v : PyVal)
    (hv : v ≠ .vBool true) :
    power_shift_scheduler sigmas steps p m v =
      power_shift_scheduler sigmas steps p m (.vBool false) := by
  have h : pyIsTrue v = false := by
    cases v with
    | vBool b =>
      cases b with
      | true => exact absurd rfl hv
      | false => rfl
    | vInt n => rfl
  have h2 : pyIsTrue (PyVal.vBool false) = false := rfl
  simp only [power_shift_scheduler, h, h2, Bool.false_eq_true, if_false]

/-- Witness for C10 at the concrete truthy integer `1`. -/
theorem C10_witness :
    power_shift_scheduler [1] 1 1 1 (.vInt 1) =
      power_shift_scheduler [1] 1 1 1 (.vBool false) :=
  C10_identity_comparison [1] 1 1 1 (.vInt 1) (by simp)
